import Mathlib

set_option maxHeartbeats 1000000

/-!
Shallow embedding of `src/bin/pretty.rs` from depthlog-rust.

A Rust `&str` or `String` is modelled by its UTF-8 byte sequence, a
`List Nat` whose elements are below 256.  All functions below are
translated from the source; `Except.error ()` models a Rust panic.
-/

/-- Rust `u8::is_ascii_whitespace`: space, horizontal tab, line feed,
form feed, carriage return. -/
def isAsciiWhitespace (b : Nat) : Bool :=
  b == 0x20 || b == 0x09 || b == 0x0A || b == 0x0C || b == 0x0D

/-- UTF-8 encoding of a Unicode scalar value: the bytes Rust appends to a
`String` when a `char` is pushed. -/
def utf8EncodeChar (c : Nat) : List Nat :=
  if c < 0x80 then [c]
  else if c < 0x800 then [0xC0 + c / 64, 0x80 + c % 64]
  else if c < 0x10000 then [0xE0 + c / 4096, 0x80 + c / 64 % 64, 0x80 + c % 64]
  else [0xF0 + c / 262144, 0x80 + c / 4096 % 64, 0x80 + c / 64 % 64, 0x80 + c % 64]

/-- The UTF-8 bytes of a Lean string literal, used to write concrete inputs. -/
def strBytes (s : String) : List Nat :=
  (s.data.map (fun c => utf8EncodeChar c.toNat)).flatten

/-- The per-line field mapping (`HashMap<String, String>` in the source),
modelled as an association list whose keys stay unique. -/
abbrev FieldMap := List (List Nat × List Nat)

/-- `HashMap::insert`: the new binding replaces any earlier binding of the key. -/
def insertField (m : FieldMap) (k v : List Nat) : FieldMap :=
  m.filter (fun p => p.1 != k) ++ [(k, v)]

/-- `HashMap::get`. -/
def getField (m : FieldMap) (k : List Nat) : Option (List Nat) :=
  (m.find? (fun p => p.1 == k)).map Prod.snd

/-- The escape table of the quoted-value loop (pretty.rs lines 166-174): the
byte following a backslash, cast to a char, decides the char that is pushed. -/
def escDecode (x : Nat) : Nat :=
  if x = 0x22 then 0x22
  else if x = 0x5C then 0x5C
  else if x = 0x6E then 0x0A
  else if x = 0x74 then 0x09
  else if x = 0x72 then 0x0D
  else x

/-- Control state of the scanning loops of `parse_logfmt`
(pretty.rs lines 129-194):
`ws` is the whitespace-skipping head of the outer loop (lines 135-140),
`key acc` the key scan (line 143), `valueStart k` the branch on the byte
right after the equals sign (line 152), `bare k acc` the bare-value scan
(lines 183-187), `quoted k acc` the quoted-value scan (lines 154-180) and
`esc k acc` its position just after a backslash (lines 161-175). -/
inductive PState
  | ws
  | key (acc : List Nat)
  | valueStart (k : List Nat)
  | bare (k : List Nat) (acc : List Nat)
  | quoted (k : List Nat) (acc : List Nat)
  | esc (k : List Nat) (acc : List Nat)

/-- One byte-at-a-time pass of `parse_logfmt` (pretty.rs lines 129-194),
the nested loops of the source flattened into a state machine. -/
def pstep : List Nat → PState → FieldMap → Except Unit FieldMap
  | [], .ws, m => .ok m
  | [], .key _, _ => .error ()
  | [], .valueStart k, m => .ok (insertField m k [])
  | [], .bare k acc, m => .ok (insertField m k acc)
  | [], .quoted k acc, m => .ok (insertField m k acc)
  | [], .esc k acc, m => .ok (insertField m k acc)
  | b :: r, .ws, m =>
    if isAsciiWhitespace b then pstep r .ws m
    else if b = 0x3D then pstep r (.valueStart []) m
    else pstep r (.key [b]) m
  | b :: r, .key acc, m =>
    if b = 0x3D then pstep r (.valueStart acc) m
    else if isAsciiWhitespace b then .error ()
    else pstep r (.key (acc ++ [b])) m
  | b :: r, .valueStart k, m =>
    if b = 0x22 then pstep r (.quoted k []) m
    else if isAsciiWhitespace b then pstep r .ws (insertField m k [])
    else pstep r (.bare k [b]) m
  | b :: r, .bare k acc, m =>
    if isAsciiWhitespace b then pstep r .ws (insertField m k acc)
    else pstep r (.bare k (acc ++ [b])) m
  | b :: r, .quoted k acc, m =>
    if b = 0x22 then pstep r .ws (insertField m k acc)
    else if b = 0x5C then pstep r (.esc k acc) m
    else pstep r (.quoted k (acc ++ utf8EncodeChar b)) m
  | b :: r, .esc k acc, m =>
    pstep r (.quoted k (acc ++ utf8EncodeChar (escDecode b))) m

/-- `parse_logfmt` (pretty.rs line 129): scan the whole line, starting
between tokens with an empty mapping. -/
def parse_logfmt (input : List Nat) : Except Unit FieldMap :=
  pstep input .ws []

/-- `str::find` for one ASCII character: byte index of its first occurrence. -/
def findByte (t : Nat) : List Nat → Option Nat
  | [] => none
  | b :: r => if b = t then some 0 else (findByte t r).map (· + 1)

/-- `str::rfind` for one ASCII character: byte index of its last occurrence. -/
def rfindByte (t : Nat) : List Nat → Option Nat
  | [] => none
  | b :: r =>
    match rfindByte t r with
    | some i => some (i + 1)
    | none => if b = t then some 0 else none

/-- pretty.rs lines 200-203: the zone-marker search
`rest.find('Z').or_else(find '+').or_else(rfind '-')`. -/
def findEnd (rest : List Nat) : Option Nat :=
  match findByte 0x5A rest with
  | some i => some i
  | none =>
    match findByte 0x2B rest with
    | some i => some i
    | none => rfindByte 0x2D rest

/-- A UTF-8 continuation byte; `str::is_char_boundary` is false exactly on
these inside the string. -/
def isContinuationByte (b : Nat) : Bool := 0x80 ≤ b && b < 0xC0

/-- pretty.rs lines 209-214: the millisecond field from the fractional part.
`frac[..3]` in the last arm panics when byte index 3 is not a char boundary;
the panic is modelled as `Except.error ()`. -/
def formatFrac (frac : List Nat) : Except Unit (List Nat) :=
  if frac.length = 0 then .ok [0x30, 0x30, 0x30]
  else if frac.length = 1 then .ok (frac ++ [0x30, 0x30])
  else if frac.length = 2 then .ok (frac ++ [0x30])
  else if frac.length = 3 ∨ isContinuationByte (frac.getD 3 0) = false then .ok (frac.take 3)
  else .error ()

/-- `format_time_hms_millis` (pretty.rs lines 196-219).  `.ok none` is the
source's `None`, `.ok (some out)` its `Some(out)`, `.error ()` a panic. -/
def format_time_hms_millis (ts : List Nat) : Except Unit (Option (List Nat)) :=
  match findByte 0x54 ts with
  | none => .ok none
  | some tpos =>
    let rest := ts.drop (tpos + 1)
    match findEnd rest with
    | none => .ok none
    | some e =>
      let tp := rest.take e
      match findByte 0x2E tp with
      | none => .ok (some (tp ++ [0x2E, 0x30, 0x30, 0x30]))
      | some dot =>
        match formatFrac (tp.drop (dot + 1)) with
        | .error _ => .error ()
        | .ok ms => .ok (some (tp.take dot ++ 0x2E :: ms))

/-- Decoding of the first `char` of a UTF-8 string, as `str::chars().next()`
computes it; on byte sequences that are not valid UTF-8 (which a Rust `&str`
never holds) the model returns the replacement character. -/
def utf8FirstChar : List Nat → Nat
  | [] => 0xFFFD
  | b :: r =>
    if b ≤ 0x7F then b
    else if 0xC2 ≤ b ∧ b ≤ 0xDF then
      if 1 ≤ r.length ∧ isContinuationByte (r.getD 0 0) then
        (b - 0xC0) * 64 + (r.getD 0 0 - 0x80)
      else 0xFFFD
    else if 0xE0 ≤ b ∧ b ≤ 0xEF then
      if 2 ≤ r.length ∧ isContinuationByte (r.getD 0 0) ∧ isContinuationByte (r.getD 1 0)
          ∧ (b ≠ 0xE0 ∨ 0xA0 ≤ r.getD 0 0) ∧ (b ≠ 0xED ∨ r.getD 0 0 ≤ 0x9F) then
        (b - 0xE0) * 4096 + (r.getD 0 0 - 0x80) * 64 + (r.getD 1 0 - 0x80)
      else 0xFFFD
    else if 0xF0 ≤ b ∧ b ≤ 0xF4 then
      if 3 ≤ r.length ∧ isContinuationByte (r.getD 0 0) ∧ isContinuationByte (r.getD 1 0)
          ∧ isContinuationByte (r.getD 2 0)
          ∧ (b ≠ 0xF0 ∨ 0x90 ≤ r.getD 0 0) ∧ (b ≠ 0xF4 ∨ r.getD 0 0 ≤ 0x8F) then
        (b - 0xF0) * 262144 + (r.getD 0 0 - 0x80) * 4096 + (r.getD 1 0 - 0x80) * 64
          + (r.getD 2 0 - 0x80)
      else 0xFFFD
    else 0xFFFD

/-- `char::to_ascii_uppercase` on a scalar value. -/
def toAsciiUpper (c : Nat) : Nat := if 0x61 ≤ c ∧ c ≤ 0x7A then c - 0x20 else c

/-- `map_level` (pretty.rs lines 85-95), returning the scalar value of the
level glyph. -/
def map_level (level : List Nat) : Nat :=
  if level = strBytes "info" then 0x49
  else if level = strBytes "warn" ∨ level = strBytes "warning" then 0x57
  else if level = strBytes "error" then 0x45
  else if level = strBytes "debug" then 0x44
  else if level = strBytes "trace" then 0x54
  else if level ≠ [] then toAsciiUpper (utf8FirstChar level)
  else 0x3F

/-- `str::parse::<usize>()` on a 64-bit target: an optional leading plus
sign, then at least one ASCII digit, and the value must fit in usize. -/
def parseUsize (s : List Nat) : Option Nat :=
  let digits := match s with
    | 0x2B :: r => r
    | _ => s
  if digits = [] then none
  else if digits.all (fun b => decide (0x30 ≤ b ∧ b ≤ 0x39)) then
    let v := digits.foldl (fun a b => a * 10 + (b - 0x30)) 0
    if v < 2 ^ 64 then some v else none
  else none

/-- ANSI reset sequence (pretty.rs line 99). -/
def ansiReset : List Nat := strBytes "\x1b[0m"

/-- ANSI bold sequence (pretty.rs line 100). -/
def ansiBold : List Nat := strBytes "\x1b[1m"

/-- The ANSI color table (pretty.rs lines 103-109), keyed by glyph. -/
def ansiColor (c : Nat) : List Nat :=
  if c = 0x45 then strBytes "\x1b[31m"
  else if c = 0x57 then strBytes "\x1b[33m"
  else if c = 0x49 then strBytes "\x1b[32m"
  else if c = 0x44 then strBytes "\x1b[34m"
  else if c = 0x54 then strBytes "\x1b[35m"
  else strBytes "\x1b[37m"

/-- `color_level` (pretty.rs lines 111-120). -/
def color_level (c : Nat) : List Nat :=
  ansiBold ++ ansiColor c ++ utf8EncodeChar c ++ ansiReset

/-- `color_func` (pretty.rs lines 122-125): bold cyan around the name. -/
def color_func (f : List Nat) : List Nat :=
  ansiBold ++ strBytes "\x1b[36m" ++ f ++ ansiReset

/-- The per-line formatting of `main` (pretty.rs lines 33-65) as a function
of the parsed fields and the color mode.  `Except.error ()` is the panic
escaping from `format_time_hms_millis`. -/
def formatLine (fields : FieldMap) (use_color : Bool) : Except Unit (List Nat) :=
  match format_time_hms_millis ((getField fields (strBytes "ts")).getD []) with
  | .error _ => .error ()
  | .ok t =>
    let time := t.getD (strBytes "??:??:??.???")
    let level_ch := map_level ((getField fields (strBytes "level")).getD [])
    let depth := ((getField fields (strBytes "depth")).bind parseUsize).getD 0
    let file := (getField fields (strBytes "file")).getD [0x3F]
    let line_no := (getField fields (strBytes "line")).getD [0x3F]
    let func := (getField fields (strBytes "func")).getD [0x3F]
    let msg := (getField fields (strBytes "msg")).getD []
    let indent := List.replicate (min (4 * depth) (2 ^ 64 - 1)) 0x20
    let lvl := if use_color then color_level level_ch else utf8EncodeChar level_ch
    let func_disp := if use_color then color_func func else func
    .ok (time ++ strBytes " [" ++ lvl ++ strBytes "] " ++ file ++ [0x3A] ++ line_no
      ++ strBytes " | " ++ indent ++ func_disp ++ [0x3A, 0x20] ++ msg ++ [0x0A])

/-- `should_use_color` (pretty.rs lines 71-83) as a function of the
environment: whether `NO_COLOR` is set at all, the value of `FORCE_COLOR`
when set to unicode text, and whether stdout is a terminal. -/
def should_use_color (noColorSet : Bool) (forceColor : Option (List Nat))
    (isTerminal : Bool) : Bool :=
  if noColorSet then false
  else
    match forceColor with
    | some v => if v ≠ strBytes "0" ∧ v ≠ [] then true else isTerminal
    | none => isTerminal

deriving instance DecidableEq for Except

/-! Sanity checks of the embedding against the spec's worked examples. -/

example : strBytes "a=1" = [97, 61, 49] := by decide

example : parse_logfmt (strBytes "a=1 b=2") =
    .ok [(strBytes "a", strBytes "1"), (strBytes "b", strBytes "2")] := by decide

example : parse_logfmt (strBytes "bad") = .error () := by decide

example : format_time_hms_millis (strBytes "2026-01-16T16:13:50.091+09:00") =
    .ok (some (strBytes "16:13:50.091")) := by decide

example : format_time_hms_millis (strBytes "2026-01-16T16:13:50Z") =
    .ok (some (strBytes "16:13:50.000")) := by decide

example : format_time_hms_millis (strBytes "no-T-here") =
    .ok (some (strBytes ".000")) := by decide

example : format_time_hms_millis (strBytes "T.ééZ") = .error () := by decide

/-! Definitions written from the spec's words, for the refinement-style
claims: escaping and re-serialization for the round trip, last-occurrence
lookup, the spec's escape table, and the spec's zone-marker rule. -/

/-- Following the claim: escape a value for re-serialization, protecting
the quote and backslash bytes. -/
def escapeVal : List Nat → List Nat
  | [] => []
  | b :: r => (if b = 0x22 ∨ b = 0x5C then [0x5C, b] else [b]) ++ escapeVal r

/-- Following the claim: one re-serialized quoted token. -/
def serializeTok (k v : List Nat) : List Nat :=
  k ++ 0x3D :: 0x22 :: (escapeVal v ++ [0x22])

/-- Following the claim: the mapping re-serialized as space-separated
quoted tokens. -/
def serialize : FieldMap → List Nat
  | [] => []
  | [(k, v)] => serializeTok k v
  | (k, v) :: rest => serializeTok k v ++ 0x20 :: serialize rest

/-- One bare token of the grammar, `key=value`. -/
def bareTok (k v : List Nat) : List Nat := k ++ 0x3D :: v

/-- A line made of space-separated bare tokens. -/
def renderBare : List (List Nat × List Nat) → List Nat
  | [] => []
  | [(k, v)] => bareTok k v
  | (k, v) :: rest => bareTok k v ++ 0x20 :: renderBare rest

/-- Following the spec: the value of the last occurrence of a key in a
token sequence. -/
def lastWins : List (List Nat × List Nat) → List Nat → Option (List Nat)
  | [], _ => none
  | (k, v) :: rest, q =>
    match lastWins rest q with
    | some w => some w
    | none => if k = q then some v else none

/-- Following the spec's escape table for quoted values. -/
def escSpec (x : Nat) : Nat :=
  if x = 0x22 then 0x22
  else if x = 0x5C then 0x5C
  else if x = 0x6E then 0x0A
  else if x = 0x74 then 0x09
  else if x = 0x72 then 0x0D
  else x

/-- Following the spec: the decoded content of a quoted value whose closing
quote is missing, accumulated to end of input. -/
def specUnquote : List Nat → List Nat
  | [] => []
  | b :: r =>
    if b = 0x5C then
      match r with
      | [] => []
      | x :: rr => utf8EncodeChar (escSpec x) ++ specUnquote rr
    else utf8EncodeChar b ++ specUnquote r

/-- No unescaped closing quote occurs in the bytes. -/
def noCloseQuote : List Nat → Bool
  | [] => true
  | b :: r =>
    if b = 0x5C then
      match r with
      | [] => true
      | _ :: rr => noCloseQuote rr
    else b != 0x22 && noCloseQuote r

/-- Following the spec: the first Z if present, else the first plus if
present, else the last dash if present, else nothing. -/
def specEnd (rest : List Nat) : Option Nat :=
  if 0x5A ∈ rest then findByte 0x5A rest
  else if 0x2B ∈ rest then findByte 0x2B rest
  else if 0x2D ∈ rest then rfindByte 0x2D rest
  else none

/-- Bytes a parsed key can hold: not the equals sign, not ASCII whitespace. -/
def goodKey (k : List Nat) : Prop :=
  ∀ b ∈ k, b ≠ 0x3D ∧ isAsciiWhitespace b = false

/-- All keys well formed and mutually distinct: the invariant of every
mapping `parse_logfmt` returns. -/
def goodMap (m : FieldMap) : Prop :=
  (∀ p ∈ m, goodKey p.1) ∧ (m.map Prod.fst).Nodup

/-! One lemma per transition of the parser state machine, so that the
inductive proofs below never unfold `pstep` by hand. -/

theorem pstep_ws_cons_ws (b : Nat) (r : List Nat) (m : FieldMap)
    (h : isAsciiWhitespace b = true) : pstep (b :: r) .ws m = pstep r .ws m := by
  simp [pstep, h]

theorem pstep_ws_cons_eq (r : List Nat) (m : FieldMap) :
    pstep (0x3D :: r) .ws m = pstep r (.valueStart []) m := by
  simp [pstep, isAsciiWhitespace]

theorem pstep_ws_cons_key (b : Nat) (r : List Nat) (m : FieldMap)
    (h1 : isAsciiWhitespace b = false) (h2 : b ≠ 0x3D) :
    pstep (b :: r) .ws m = pstep r (.key [b]) m := by
  simp [pstep, h1, h2]

theorem pstep_key_cons_eq (r acc : List Nat) (m : FieldMap) :
    pstep (0x3D :: r) (.key acc) m = pstep r (.valueStart acc) m := by
  simp [pstep]

theorem pstep_key_cons_ws (b : Nat) (r acc : List Nat) (m : FieldMap)
    (h1 : isAsciiWhitespace b = true) : pstep (b :: r) (.key acc) m = .error () := by
  have h2 : b ≠ 0x3D := by intro h; subst h; simp [isAsciiWhitespace] at h1
  simp [pstep, h1, h2]

theorem pstep_key_cons (b : Nat) (r acc : List Nat) (m : FieldMap)
    (h1 : isAsciiWhitespace b = false) (h2 : b ≠ 0x3D) :
    pstep (b :: r) (.key acc) m = pstep r (.key (acc ++ [b])) m := by
  simp [pstep, h1, h2]

theorem pstep_vs_cons_quote (r k : List Nat) (m : FieldMap) :
    pstep (0x22 :: r) (.valueStart k) m = pstep r (.quoted k []) m := by
  simp [pstep]

theorem pstep_vs_cons_ws (b : Nat) (r k : List Nat) (m : FieldMap)
    (h1 : isAsciiWhitespace b = true) :
    pstep (b :: r) (.valueStart k) m = pstep r .ws (insertField m k []) := by
  have h2 : b ≠ 0x22 := by intro h; subst h; simp [isAsciiWhitespace] at h1
  simp [pstep, h1, h2]

theorem pstep_vs_cons_bare (b : Nat) (r k : List Nat) (m : FieldMap)
    (h1 : isAsciiWhitespace b = false) (h2 : b ≠ 0x22) :
    pstep (b :: r) (.valueStart k) m = pstep r (.bare k [b]) m := by
  simp [pstep, h1, h2]

theorem pstep_bare_cons_ws (b : Nat) (r k acc : List Nat) (m : FieldMap)
    (h : isAsciiWhitespace b = true) :
    pstep (b :: r) (.bare k acc) m = pstep r .ws (insertField m k acc) := by
  simp [pstep, h]

theorem pstep_bare_cons (b : Nat) (r k acc : List Nat) (m : FieldMap)
    (h : isAsciiWhitespace b = false) :
    pstep (b :: r) (.bare k acc) m = pstep r (.bare k (acc ++ [b])) m := by
  simp [pstep, h]

theorem pstep_quoted_cons_close (r k acc : List Nat) (m : FieldMap) :
    pstep (0x22 :: r) (.quoted k acc) m = pstep r .ws (insertField m k acc) := by
  simp [pstep]

theorem pstep_quoted_cons_esc (r k acc : List Nat) (m : FieldMap) :
    pstep (0x5C :: r) (.quoted k acc) m = pstep r (.esc k acc) m := by
  simp [pstep]

theorem pstep_quoted_cons (b : Nat) (r k acc : List Nat) (m : FieldMap)
    (h1 : b ≠ 0x22) (h2 : b ≠ 0x5C) :
    pstep (b :: r) (.quoted k acc) m = pstep r (.quoted k (acc ++ utf8EncodeChar b)) m := by
  simp [pstep, h1, h2]

theorem pstep_esc_cons (b : Nat) (r k acc : List Nat) (m : FieldMap) :
    pstep (b :: r) (.esc k acc) m
      = pstep r (.quoted k (acc ++ utf8EncodeChar (escDecode b))) m := rfl

/-! Stepping lemmas over whole runs of bytes. -/

theorem pstep_ws_skip (w : List Nat) (hw : ∀ b ∈ w, isAsciiWhitespace b = true) :
    ∀ rest m, pstep (w ++ rest) .ws m = pstep rest .ws m := by
  induction w with
  | nil => intro rest m; rfl
  | cons b r ih =>
    intro rest m
    rw [List.cons_append, pstep_ws_cons_ws b _ m (hw b (by simp))]
    exact ih (fun x hx => hw x (by simp [hx])) rest m

theorem pstep_key_scan (k : List Nat) (hk : goodKey k) :
    ∀ t acc m, pstep (k ++ 0x3D :: t) (.key acc) m
      = pstep t (.valueStart (acc ++ k)) m := by
  induction k with
  | nil => intro t acc m; rw [List.nil_append, pstep_key_cons_eq, List.append_nil]
  | cons b r ih =>
    intro t acc m
    obtain ⟨hne, hws⟩ := hk b (by simp)
    rw [List.cons_append, pstep_key_cons b _ acc m hws hne,
      ih (fun x hx => hk x (by simp [hx])) t (acc ++ [b]) m]
    simp

theorem pstep_key_from_ws (k t : List Nat) (m : FieldMap) (hk : goodKey k) :
    pstep (k ++ 0x3D :: t) .ws m = pstep t (.valueStart k) m := by
  cases k with
  | nil => rw [List.nil_append, pstep_ws_cons_eq]
  | cons b r =>
    obtain ⟨hne, hws⟩ := hk b (by simp)
    rw [List.cons_append, pstep_ws_cons_key b _ m hws hne,
      pstep_key_scan r (fun x hx => hk x (by simp [hx])) t [b] m]
    rfl

theorem pstep_key_fail (k : List Nat) (hk : goodKey k) :
    ∀ rest acc m, (rest = [] ∨ ∃ w t, rest = w :: t ∧ isAsciiWhitespace w = true) →
      pstep (k ++ rest) (.key acc) m = .error () := by
  induction k with
  | nil =>
    intro rest acc m hrest
    rcases hrest with rfl | ⟨w, t, rfl, hw⟩
    · rfl
    · exact pstep_key_cons_ws w t acc m hw
  | cons b r ih =>
    intro rest acc m hrest
    obtain ⟨hne, hws⟩ := hk b (by simp)
    rw [List.cons_append, pstep_key_cons b _ acc m hws hne]
    exact ih (fun x hx => hk x (by simp [hx])) rest (acc ++ [b]) m hrest

theorem pstep_key_fail_ws (k rest : List Nat) (m : FieldMap) (hk : goodKey k)
    (hne : k ≠ [])
    (hrest : rest = [] ∨ ∃ w t, rest = w :: t ∧ isAsciiWhitespace w = true) :
    pstep (k ++ rest) .ws m = .error () := by
  cases k with
  | nil => exact absurd rfl hne
  | cons b r =>
    obtain ⟨hb, hws⟩ := hk b (by simp)
    rw [List.cons_append, pstep_ws_cons_key b _ m hws hb]
    exact pstep_key_fail r (fun x hx => hk x (by simp [hx])) rest [b] m hrest

theorem utf8EncodeChar_ascii (b : Nat) (hb : b < 0x80) : utf8EncodeChar b = [b] := by
  simp [utf8EncodeChar, hb]

theorem pstep_quoted_scan (v : List Nat) (hv : ∀ b ∈ v, b < 0x80) :
    ∀ t k acc m, pstep (escapeVal v ++ 0x22 :: t) (.quoted k acc) m
      = pstep t .ws (insertField m k (acc ++ v)) := by
  induction v with
  | nil =>
    intro t k acc m
    rw [show escapeVal [] = [] from rfl, List.nil_append, pstep_quoted_cons_close,
      List.append_nil]
  | cons b r ih =>
    intro t k acc m
    have hb : b < 0x80 := hv b (by simp)
    have hr : ∀ x ∈ r, x < 0x80 := fun x hx => hv x (by simp [hx])
    by_cases hq : b = 0x22 ∨ b = 0x5C
    · have h1 : escapeVal (b :: r) = 0x5C :: b :: escapeVal r := by
        simp [escapeVal, hq]
      have hd : escDecode b = b := by rcases hq with rfl | rfl <;> rfl
      rw [h1, List.cons_append, List.cons_append, pstep_quoted_cons_esc,
        pstep_esc_cons, hd, utf8EncodeChar_ascii b hb, ih hr t k (acc ++ [b]) m]
      simp
    · push_neg at hq
      obtain ⟨hq1, hq2⟩ := hq
      have h1 : escapeVal (b :: r) = b :: escapeVal r := by
        simp [escapeVal, hq1, hq2]
      rw [h1, List.cons_append, pstep_quoted_cons b _ k acc m hq1 hq2,
        utf8EncodeChar_ascii b hb, ih hr t k (acc ++ [b]) m]
      simp

theorem pstep_bare_scan (v : List Nat) (hv : ∀ b ∈ v, isAsciiWhitespace b = false) :
    ∀ rest k acc m, pstep (v ++ rest) (.bare k acc) m
      = pstep rest (.bare k (acc ++ v)) m := by
  induction v with
  | nil => intro rest k acc m; simp
  | cons b r ih =>
    intro rest k acc m
    rw [List.cons_append, pstep_bare_cons b _ k acc m (hv b (by simp)),
      ih (fun x hx => hv x (by simp [hx])) rest k (acc ++ [b]) m]
    simp

theorem pstep_tokenQuoted (k v rest : List Nat) (m : FieldMap) (hk : goodKey k)
    (hv : ∀ b ∈ v, b < 0x80) :
    pstep (serializeTok k v ++ rest) .ws m = pstep rest .ws (insertField m k v) := by
  have h1 : serializeTok k v ++ rest
      = k ++ 0x3D :: 0x22 :: (escapeVal v ++ 0x22 :: rest) := by
    simp [serializeTok]
  rw [h1, pstep_key_from_ws _ _ _ hk, pstep_vs_cons_quote,
    pstep_quoted_scan v hv rest k [] m]
  rfl

theorem pstep_tokenBare (k v rest : List Nat) (m : FieldMap) (hk : goodKey k)
    (hv : ∀ b ∈ v, isAsciiWhitespace b = false) (hq : v.head? ≠ some 0x22)
    (hrest : rest = [] ∨ ∃ w t, rest = w :: t ∧ isAsciiWhitespace w = true) :
    pstep (bareTok k v ++ rest) .ws m = pstep rest .ws (insertField m k v) := by
  have h1 : bareTok k v ++ rest = k ++ 0x3D :: (v ++ rest) := by
    simp [bareTok]
  rw [h1, pstep_key_from_ws _ _ _ hk]
  cases v with
  | nil =>
    rcases hrest with rfl | ⟨w, t, rfl, hw⟩
    · rfl
    · rw [List.nil_append, pstep_vs_cons_ws w t k m hw, pstep_ws_cons_ws w t _ hw]
  | cons b r =>
    have hbq : b ≠ 0x22 := by intro h; subst h; simp at hq
    rw [List.cons_append, pstep_vs_cons_bare b _ k m (hv b (by simp)) hbq,
      pstep_bare_scan r (fun x hx => hv x (by simp [hx])) rest k [b] m]
    rcases hrest with rfl | ⟨w, t, rfl, hw⟩
    · rfl
    · rw [pstep_bare_cons_ws w t k _ m hw, pstep_ws_cons_ws w t _ hw]
      rfl

/-! Lemmas about the association-list model of the mapping. -/

theorem insertField_of_not_mem (m : FieldMap) (k v : List Nat)
    (h : ∀ p ∈ m, p.1 ≠ k) : insertField m k v = m ++ [(k, v)] := by
  unfold insertField
  congr 1
  apply List.filter_eq_self.mpr
  intro a ha
  simpa [bne_iff_ne] using h a ha

theorem getField_insert_self (m : FieldMap) (k v : List Nat) :
    getField (insertField m k v) k = some v := by
  unfold getField insertField
  rw [List.find?_append]
  have h1 : (m.filter (fun p => p.1 != k)).find? (fun p => p.1 == k) = none := by
    apply List.find?_eq_none.mpr
    intro p hp
    have := List.of_mem_filter hp
    simpa [bne_iff_ne] using this
  rw [h1]
  simp [List.find?]

theorem findField_cons (f : List Nat × List Nat → Bool) (a : List Nat × List Nat)
    (l : List (List Nat × List Nat)) :
    List.find? f (a :: l) = if f a then some a else List.find? f l := by
  by_cases h : f a = true
  · rw [List.find?_cons_of_pos l h, if_pos h]
  · rw [List.find?_cons_of_neg l h, if_neg h]

theorem find?_filter_ne (m : FieldMap) (k q : List Nat) (h : q ≠ k) :
    (m.filter (fun p => p.1 != k)).find? (fun p => p.1 == q)
      = m.find? (fun p => p.1 == q) := by
  induction m with
  | nil => rfl
  | cons p rest ih =>
    by_cases hp : p.1 = k
    · have hq : (p.1 == q) = false := by
        simp only [beq_eq_false_iff_ne, ne_eq, hp]
        exact fun hh => h hh.symm
      have hf : (p.1 != k) = false := by simp [hp]
      rw [List.filter_cons, hf]
      simp only [Bool.false_eq_true, if_false]
      rw [ih, findField_cons]
      simp [hq]
    · have hf : (p.1 != k) = true := by simp [bne_iff_ne, hp]
      rw [List.filter_cons, hf, if_pos rfl, findField_cons, findField_cons]
      by_cases hpq : (p.1 == q) = true
      · simp [hpq]
      · simp only [Bool.not_eq_true] at hpq
        simp [hpq, ih]

theorem getField_insert_ne (m : FieldMap) (k v q : List Nat) (h : q ≠ k) :
    getField (insertField m k v) q = getField m q := by
  unfold getField insertField
  rw [List.find?_append, find?_filter_ne m k q h]
  have h2 : List.find? (fun p => p.1 == q) [(k, v)] = none := by
    rw [findField_cons]
    have hkq : ((k, v).1 == q) = false := by
      simp only [beq_eq_false_iff_ne, ne_eq]
      exact fun hh => h hh.symm
    simp [hkq]
  rw [h2]
  cases m.find? (fun p => p.1 == q) <;> rfl

theorem getField_foldl_insert (pairs : List (List Nat × List Nat)) :
    ∀ m0 q, getField (pairs.foldl (fun a p => insertField a p.1 p.2) m0) q
      = match lastWins pairs q with
        | some w => some w
        | none => getField m0 q := by
  induction pairs with
  | nil => intro m0 q; rfl
  | cons p rest ih =>
    intro m0 q
    show getField (rest.foldl (fun a p => insertField a p.1 p.2) (insertField m0 p.1 p.2)) q = _
    rw [ih]
    cases hlw : lastWins rest q with
    | some w => simp [lastWins, hlw]
    | none =>
      simp only [lastWins, hlw]
      by_cases hq : p.1 = q
      · subst hq
        simp [getField_insert_self]
      · rw [getField_insert_ne m0 p.1 p.2 q (fun hh => hq hh.symm)]
        simp [hq]

theorem insertField_nodupKeys (m : FieldMap) (k v : List Nat)
    (h : (m.map Prod.fst).Nodup) : ((insertField m k v).map Prod.fst).Nodup := by
  unfold insertField
  rw [List.map_append, List.nodup_append]
  refine ⟨?_, by simp, ?_⟩
  · exact h.sublist (List.Sublist.map Prod.fst (List.filter_sublist m))
  · intro a ha hb
    simp only [List.map_cons, List.map_nil, List.mem_singleton] at hb
    subst hb
    obtain ⟨p, hp, hpa⟩ := List.mem_map.mp ha
    have := List.of_mem_filter hp
    rw [hpa] at this
    simp [bne_iff_ne] at this

theorem foldl_insert_nodupKeys (pairs : List (List Nat × List Nat)) :
    ∀ m0 : FieldMap, (m0.map Prod.fst).Nodup →
      ((pairs.foldl (fun a p => insertField a p.1 p.2) m0).map Prod.fst).Nodup := by
  induction pairs with
  | nil => intro m0 h; exact h
  | cons p rest ih =>
    intro m0 h
    exact ih (insertField m0 p.1 p.2) (insertField_nodupKeys m0 p.1 p.2 h)

theorem foldl_insert_eq_append (pairs : List (List Nat × List Nat)) :
    ∀ m0 : FieldMap, (∀ p ∈ pairs, ∀ q ∈ m0, p.1 ≠ q.1) →
      (pairs.map Prod.fst).Nodup →
      pairs.foldl (fun a p => insertField a p.1 p.2) m0 = m0 ++ pairs := by
  induction pairs with
  | nil => intro m0 _ _; simp
  | cons p rest ih =>
    intro m0 hdisj hnd
    have hnd0 := List.nodup_cons.mp
      (show (p.1 :: List.map Prod.fst rest).Nodup from by rw [← List.map_cons]; exact hnd)
    have h1 : insertField m0 p.1 p.2 = m0 ++ [p] := by
      apply insertField_of_not_mem
      intro q hq hh
      exact (hdisj p (by simp) q hq) hh.symm
    have hdisj2 : ∀ r ∈ rest, ∀ q ∈ m0 ++ [p], r.1 ≠ q.1 := by
      intro r hr q hq
      rcases List.mem_append.mp hq with hq0 | hq1
      · exact hdisj r (by simp [hr]) q hq0
      · rw [List.mem_singleton] at hq1
        subst hq1
        intro hh
        exact hnd0.1 (List.mem_map.mpr ⟨r, hr, hh⟩)
    show rest.foldl (fun a p => insertField a p.1 p.2) (insertField m0 p.1 p.2) = _
    rw [h1, ih (m0 ++ [p]) hdisj2 hnd0.2]
    simp

/-! The invariant of the parser: keys are well formed and unique. -/

/-- Key components held in a machine state are well formed. -/
def stGood : PState → Prop
  | .ws => True
  | .key acc => goodKey acc
  | .valueStart k => goodKey k
  | .bare k _ => goodKey k
  | .quoted k _ => goodKey k
  | .esc k _ => goodKey k

theorem goodMap_nil : goodMap [] := ⟨by simp, by simp⟩

theorem goodMap_insert (m : FieldMap) (k v : List Nat) (hm : goodMap m)
    (hk : goodKey k) : goodMap (insertField m k v) := by
  constructor
  · intro p hp
    simp only [insertField] at hp
    rcases List.mem_append.mp hp with h | h
    · exact hm.1 p (List.mem_of_mem_filter h)
    · rw [List.mem_singleton] at h
      subst h
      exact hk
  · exact insertField_nodupKeys m k v hm.2

theorem goodKey_push (acc : List Nat) (b : Nat) (h : goodKey acc)
    (h1 : b ≠ 0x3D) (h2 : isAsciiWhitespace b = false) : goodKey (acc ++ [b]) := by
  intro x hx
  rcases List.mem_append.mp hx with hx0 | hx1
  · exact h x hx0
  · rw [List.mem_singleton] at hx1
    subst hx1
    exact ⟨h1, h2⟩

theorem pstep_goodMap (input : List Nat) :
    ∀ st m0 m, stGood st → goodMap m0 → pstep input st m0 = .ok m → goodMap m := by
  induction input with
  | nil =>
    intro st m0 m hst hm0 h
    cases st with
    | ws =>
      rw [show pstep [] .ws m0 = .ok m0 from rfl] at h
      injection h with h
      subst h
      exact hm0
    | key acc => exact absurd h (by simp [pstep])
    | valueStart k =>
      injection h with h
      subst h
      exact goodMap_insert m0 k [] hm0 hst
    | bare k acc =>
      injection h with h
      subst h
      exact goodMap_insert m0 k acc hm0 hst
    | quoted k acc =>
      injection h with h
      subst h
      exact goodMap_insert m0 k acc hm0 hst
    | esc k acc =>
      injection h with h
      subst h
      exact goodMap_insert m0 k acc hm0 hst
  | cons b r ih =>
    intro st m0 m hst hm0 h
    cases st with
    | ws =>
      by_cases hw : isAsciiWhitespace b = true
      · rw [pstep_ws_cons_ws b r m0 hw] at h
        exact ih .ws m0 m trivial hm0 h
      · rw [Bool.not_eq_true] at hw
        by_cases he : b = 0x3D
        · subst he
          rw [pstep_ws_cons_eq r m0] at h
          exact ih (.valueStart []) m0 m (by intro x hx; simp at hx) hm0 h
        · rw [pstep_ws_cons_key b r m0 hw he] at h
          exact ih (.key [b]) m0 m (goodKey_push [] b (by intro x hx; simp at hx) he hw) hm0 h
    | key acc =>
      by_cases he : b = 0x3D
      · subst he
        rw [pstep_key_cons_eq r acc m0] at h
        exact ih (.valueStart acc) m0 m hst hm0 h
      · by_cases hw : isAsciiWhitespace b = true
        · rw [pstep_key_cons_ws b r acc m0 hw] at h
          exact absurd h (by simp)
        · rw [Bool.not_eq_true] at hw
          rw [pstep_key_cons b r acc m0 hw he] at h
          exact ih (.key (acc ++ [b])) m0 m (goodKey_push acc b hst he hw) hm0 h
    | valueStart k =>
      by_cases hq : b = 0x22
      · subst hq
        rw [pstep_vs_cons_quote r k m0] at h
        exact ih (.quoted k []) m0 m hst hm0 h
      · by_cases hw : isAsciiWhitespace b = true
        · rw [pstep_vs_cons_ws b r k m0 hw] at h
          exact ih .ws (insertField m0 k []) m trivial (goodMap_insert m0 k [] hm0 hst) h
        · rw [Bool.not_eq_true] at hw
          rw [pstep_vs_cons_bare b r k m0 hw hq] at h
          exact ih (.bare k [b]) m0 m hst hm0 h
    | bare k acc =>
      by_cases hw : isAsciiWhitespace b = true
      · rw [pstep_bare_cons_ws b r k acc m0 hw] at h
        exact ih .ws (insertField m0 k acc) m trivial (goodMap_insert m0 k acc hm0 hst) h
      · rw [Bool.not_eq_true] at hw
        rw [pstep_bare_cons b r k acc m0 hw] at h
        exact ih (.bare k (acc ++ [b])) m0 m hst hm0 h
    | quoted k acc =>
      by_cases hq : b = 0x22
      · subst hq
        rw [pstep_quoted_cons_close r k acc m0] at h
        exact ih .ws (insertField m0 k acc) m trivial (goodMap_insert m0 k acc hm0 hst) h
      · by_cases hesc : b = 0x5C
        · subst hesc
          rw [pstep_quoted_cons_esc r k acc m0] at h
          exact ih (.esc k acc) m0 m hst hm0 h
        · rw [pstep_quoted_cons b r k acc m0 hq hesc] at h
          exact ih (.quoted k (acc ++ utf8EncodeChar b)) m0 m hst hm0 h
    | esc k acc =>
      rw [pstep_esc_cons b r k acc m0] at h
      exact ih (.quoted k (acc ++ utf8EncodeChar (escDecode b))) m0 m hst hm0 h

/-! Parsing rendered token lists. -/

theorem parse_renderBare (pairs : List (List Nat × List Nat))
    (h : ∀ p ∈ pairs, goodKey p.1 ∧ (∀ b ∈ p.2, isAsciiWhitespace b = false)
      ∧ p.2.head? ≠ some 0x22) :
    ∀ m, pstep (renderBare pairs) .ws m
      = .ok (pairs.foldl (fun a p => insertField a p.1 p.2) m) := by
  induction pairs with
  | nil => intro m; rfl
  | cons p rest ih =>
    intro m
    obtain ⟨hk, hv, hq⟩ := h p (by simp)
    obtain ⟨k, v⟩ := p
    cases rest with
    | nil =>
      have h2 := pstep_tokenBare k v [] m hk hv hq (Or.inl rfl)
      show pstep (bareTok k v) .ws m = .ok (insertField m k v)
      simpa using h2
    | cons p2 rest2 =>
      have h2 := pstep_tokenBare k v (0x20 :: renderBare (p2 :: rest2)) m hk hv hq
        (Or.inr ⟨0x20, renderBare (p2 :: rest2), rfl, by decide⟩)
      show pstep (bareTok k v ++ 0x20 :: renderBare (p2 :: rest2)) .ws m = _
      rw [h2, pstep_ws_cons_ws 0x20 _ _ (by decide)]
      exact ih (fun q hq2 => h q (by simp [hq2])) (insertField m k v)

theorem parse_serialize (ps : List (List Nat × List Nat))
    (hk : ∀ p ∈ ps, goodKey p.1) (hv : ∀ p ∈ ps, ∀ b ∈ p.2, b < 0x80) :
    ∀ m, pstep (serialize ps) .ws m
      = .ok (ps.foldl (fun a p => insertField a p.1 p.2) m) := by
  induction ps with
  | nil => intro m; rfl
  | cons p rest ih =>
    intro m
    obtain ⟨k, v⟩ := p
    cases rest with
    | nil =>
      have h2 := pstep_tokenQuoted k v [] m (hk (k, v) (by simp)) (hv (k, v) (by simp))
      show pstep (serializeTok k v) .ws m = .ok (insertField m k v)
      simpa using h2
    | cons p2 rest2 =>
      have h2 := pstep_tokenQuoted k v (0x20 :: serialize (p2 :: rest2)) m
        (hk (k, v) (by simp)) (hv (k, v) (by simp))
      show pstep (serializeTok k v ++ 0x20 :: serialize (p2 :: rest2)) .ws m = _
      rw [h2, pstep_ws_cons_ws 0x20 _ _ (by decide)]
      exact ih (fun q hq2 => hk q (by simp [hq2]))
        (fun q hq2 => hv q (by simp [hq2])) (insertField m k v)

/-! Lemmas about the character searches of the timestamp normalizer. -/

theorem findByte_eq_none_iff (t : Nat) (l : List Nat) : findByte t l = none ↔ t ∉ l := by
  induction l with
  | nil => simp [findByte]
  | cons b r ih =>
    by_cases hb : b = t
    · subst hb
      simp [findByte]
    · have hbt : t ≠ b := fun h => hb h.symm
      simp [findByte, hb, Option.map_eq_none', ih, hbt]

theorem rfindByte_eq_none_iff (t : Nat) (l : List Nat) : rfindByte t l = none ↔ t ∉ l := by
  induction l with
  | nil => simp [rfindByte]
  | cons b r ih =>
    simp only [rfindByte]
    cases hr : rfindByte t r with
    | some i =>
      have htr : t ∈ r := by
        by_contra hc
        rw [ih.mpr hc] at hr
        exact Option.noConfusion hr
      simp [htr]
    | none =>
      have htr : t ∉ r := ih.mp hr
      by_cases hb : b = t
      · subst hb
        simp
      · have hbt : t ≠ b := fun h => hb h.symm
        simp [hb, htr, hbt]

theorem findEnd_eq_specEnd (rest : List Nat) : findEnd rest = specEnd rest := by
  unfold findEnd specEnd
  by_cases hz : 0x5A ∈ rest
  · cases hZ : findByte 0x5A rest with
    | none => exact absurd ((findByte_eq_none_iff _ _).mp hZ) (by simpa using hz)
    | some i => simp [hz]
  · rw [(findByte_eq_none_iff 0x5A rest).mpr hz, if_neg hz]
    by_cases hp : 0x2B ∈ rest
    · cases hP : findByte 0x2B rest with
      | none => exact absurd ((findByte_eq_none_iff _ _).mp hP) (by simpa using hp)
      | some i => simp [hp]
    · rw [(findByte_eq_none_iff 0x2B rest).mpr hp, if_neg hp]
      by_cases hd : 0x2D ∈ rest
      · simp [hd]
      · rw [if_neg hd, (rfindByte_eq_none_iff 0x2D rest).mpr hd]

theorem format_time_none_of_no_marker (ts : List Nat) (tpos : Nat)
    (hT : findByte 0x54 ts = some tpos)
    (hz : 0x5A ∉ ts.drop (tpos + 1)) (hp : 0x2B ∉ ts.drop (tpos + 1))
    (hd : 0x2D ∉ ts.drop (tpos + 1)) :
    format_time_hms_millis ts = .ok none := by
  unfold format_time_hms_millis
  rw [hT]
  have hE : findEnd (ts.drop (tpos + 1)) = none := by
    rw [findEnd_eq_specEnd]
    unfold specEnd
    rw [if_neg hz, if_neg hp, if_neg hd]
  simp [hE]

/-! Support for the color claim: no ESC byte can appear in uncolored output
when none appears in the parsed field values. -/

/-- A byte string free of the ESC byte that starts every ANSI sequence. -/
def escFree (l : List Nat) : Prop := ∀ b ∈ l, b ≠ 0x1B

theorem escFree_append (l1 l2 : List Nat) (h1 : escFree l1) (h2 : escFree l2) :
    escFree (l1 ++ l2) := by
  intro b hb
  rcases List.mem_append.mp hb with h | h
  · exact h1 b h
  · exact h2 b h

theorem utf8EncodeChar_no_esc (c : Nat) (hc : c ≠ 0x1B) : escFree (utf8EncodeChar c) := by
  unfold utf8EncodeChar escFree
  split_ifs with h1 h2 h3
  · intro b hb
    simp at hb
    subst hb
    exact hc
  · intro b hb
    simp at hb
    omega
  · intro b hb
    simp at hb
    omega
  · intro b hb
    simp at hb
    omega

theorem utf8FirstChar_ne_esc (l : List Nat) (hl : escFree l) : utf8FirstChar l ≠ 0x1B := by
  cases l with
  | nil => decide
  | cons b r =>
    simp only [utf8FirstChar]
    split_ifs with h1 h2 h3 h4 h5 h6 h7
    · exact hl b (by simp)
    · simp only [isContinuationByte, Bool.and_eq_true, decide_eq_true_eq] at h3
      omega
    · decide
    · simp only [isContinuationByte, Bool.and_eq_true, decide_eq_true_eq] at h5
      omega
    · decide
    · simp only [isContinuationByte, Bool.and_eq_true, decide_eq_true_eq] at h7
      omega
    · decide
    · decide

theorem toAsciiUpper_ne_esc (c : Nat) (hc : c ≠ 0x1B) : toAsciiUpper c ≠ 0x1B := by
  unfold toAsciiUpper
  split_ifs with h
  · omega
  · exact hc

theorem map_level_ne_esc (level : List Nat) (hl : escFree level) :
    map_level level ≠ 0x1B := by
  unfold map_level
  split_ifs with h1 h2 h3 h4 h5 h6
  · decide
  · decide
  · decide
  · decide
  · decide
  · exact toAsciiUpper_ne_esc _ (utf8FirstChar_ne_esc level hl)
  · decide

theorem formatFrac_subset (frac ms : List Nat) (h : formatFrac frac = .ok ms) :
    ∀ b ∈ ms, b ∈ frac ∨ b = 0x30 := by
  unfold formatFrac at h
  split_ifs at h with h0 h1 h2 h3
  · injection h with h
    subst h
    intro b hb
    simp at hb
    exact Or.inr hb
  · injection h with h
    subst h
    intro b hb
    rcases List.mem_append.mp hb with hb0 | hb1
    · exact Or.inl hb0
    · simp at hb1
      exact Or.inr hb1
  · injection h with h
    subst h
    intro b hb
    rcases List.mem_append.mp hb with hb0 | hb1
    · exact Or.inl hb0
    · simp at hb1
      exact Or.inr hb1
  · injection h with h
    subst h
    intro b hb
    exact Or.inl (List.take_subset 3 frac hb)

theorem format_time_subset (ts r : List Nat)
    (h : format_time_hms_millis ts = .ok (some r)) :
    ∀ b ∈ r, b ∈ ts ∨ b = 0x2E ∨ b = 0x30 := by
  unfold format_time_hms_millis at h
  cases hT : findByte 0x54 ts with
  | none => rw [hT] at h; simp at h
  | some tpos =>
    rw [hT] at h
    simp only at h
    cases hE : findEnd (ts.drop (tpos + 1)) with
    | none => rw [hE] at h; simp at h
    | some e =>
      rw [hE] at h
      simp only at h
      cases hD : findByte 0x2E ((ts.drop (tpos + 1)).take e) with
      | none =>
        rw [hD] at h
        simp only [Except.ok.injEq, Option.some.injEq] at h
        subst h
        intro b hb
        rcases List.mem_append.mp hb with hb0 | hb1
        · exact Or.inl (List.drop_subset _ ts (List.take_subset _ _ hb0))
        · right
          simp at hb1
          rcases hb1 with hb1 | hb1
          · exact Or.inl hb1
          · exact Or.inr hb1
      | some dot =>
        rw [hD] at h
        simp only at h
        cases hF : formatFrac (((ts.drop (tpos + 1)).take e).drop (dot + 1)) with
        | error e0 => rw [hF] at h; simp at h
        | ok ms =>
          rw [hF] at h
          simp only [Except.ok.injEq, Option.some.injEq] at h
          subst h
          intro b hb
          rcases List.mem_append.mp hb with hb0 | hb1
          · exact Or.inl (List.drop_subset _ ts
              (List.take_subset _ _ (List.take_subset _ _ hb0)))
          · rcases List.mem_cons.mp hb1 with hb2 | hb2
            · exact Or.inr (Or.inl hb2)
            · rcases formatFrac_subset _ ms hF b hb2 with hb3 | hb3
              · exact Or.inl (List.drop_subset _ ts
                  (List.take_subset _ _ (List.drop_subset _ _ hb3)))
              · exact Or.inr (Or.inr hb3)

theorem getField_getD_mem (m : FieldMap) (k : List Nat) (b : Nat)
    (hb : b ∈ (getField m k).getD []) : ∃ p ∈ m, b ∈ p.2 := by
  cases hf : getField m k with
  | none => rw [hf] at hb; simp at hb
  | some v =>
    rw [hf] at hb
    simp only [Option.getD_some] at hb
    unfold getField at hf
    cases hff : m.find? (fun p => p.1 == k) with
    | none => rw [hff] at hf; simp at hf
    | some p =>
      rw [hff] at hf
      simp only [Option.map_some'] at hf
      injection hf with hf
      have hm := List.mem_of_find?_eq_some hff
      exact ⟨p, hm, by rw [hf]; exact hb⟩

instance escFree_decidable (l : List Nat) : Decidable (escFree l) :=
  List.decidableBAll (fun b => b ≠ 0x1B) l

theorem formatLine_no_esc (m : FieldMap) (out : List Nat)
    (hm : ∀ p ∈ m, escFree p.2)
    (h : formatLine m false = .ok out) : 0x1B ∉ out := by
  have hfield : ∀ k : List Nat, escFree ((getField m k).getD []) := by
    intro k b hb
    obtain ⟨p, hp, hbp⟩ := getField_getD_mem m k b hb
    exact hm p hp b hbp
  have hfieldD : ∀ k : List Nat, escFree ((getField m k).getD [0x3F]) := by
    intro k
    cases hf : getField m k with
    | none =>
      intro b hb
      simp at hb
      subst hb
      decide
    | some v =>
      have hv := hfield k
      rw [hf] at hv
      simpa using hv
  have hindent : ∀ n : Nat, escFree (List.replicate n 0x20) := by
    intro n b hb
    rw [List.eq_of_mem_replicate hb]
    decide
  unfold formatLine at h
  cases hT : format_time_hms_millis ((getField m (strBytes "ts")).getD []) with
  | error e => rw [hT] at h; simp at h
  | ok t =>
    rw [hT] at h
    simp only [Bool.false_eq_true, if_false] at h
    injection h with h
    subst h
    have htime : escFree (t.getD (strBytes "??:??:??.???")) := by
      cases t with
      | none => decide
      | some v =>
        intro b hb
        rcases format_time_subset _ v hT b hb with h1 | h1 | h1
        · exact hfield (strBytes "ts") b h1
        · subst h1; decide
        · subst h1; decide
    have hlvl : escFree (utf8EncodeChar (map_level ((getField m (strBytes "level")).getD []))) :=
      utf8EncodeChar_no_esc _ (map_level_ne_esc _ (hfield _))
    intro hmem
    have hall : escFree (t.getD (strBytes "??:??:??.???") ++ strBytes " ["
        ++ utf8EncodeChar (map_level ((getField m (strBytes "level")).getD []))
        ++ strBytes "] " ++ (getField m (strBytes "file")).getD [0x3F] ++ [0x3A]
        ++ (getField m (strBytes "line")).getD [0x3F] ++ strBytes " | "
        ++ List.replicate
            (min (4 * (((getField m (strBytes "depth")).bind parseUsize).getD 0)) (2 ^ 64 - 1))
            0x20
        ++ (getField m (strBytes "func")).getD [0x3F] ++ [0x3A, 0x20]
        ++ (getField m (strBytes "msg")).getD [] ++ [0x0A]) := by
      repeat' apply escFree_append
      all_goals first
        | exact htime
        | exact hlvl
        | exact hfieldD _
        | exact hfield _
        | exact hindent _
        | decide
    exact hall 0x1B hmem rfl

/-! Support for the escape-decoding and round-trip claims. -/

theorem escDecode_eq_escSpec (x : Nat) : escDecode x = escSpec x := rfl

theorem pstep_quoted_unterminated_bounded : ∀ (n : Nat) (bs : List Nat), bs.length ≤ n →
    ∀ k acc m, noCloseQuote bs = true →
      pstep bs (.quoted k acc) m = .ok (insertField m k (acc ++ specUnquote bs)) := by
  intro n
  induction n with
  | zero =>
    intro bs hlen k acc m h
    have hb : bs = [] := List.eq_nil_of_length_eq_zero (Nat.le_zero.mp hlen)
    subst hb
    simp [pstep, specUnquote]
  | succ n ih =>
    intro bs hlen k acc m h
    cases bs with
    | nil => simp [pstep, specUnquote]
    | cons b r =>
      by_cases hb : b = 0x5C
      · subst hb
        cases r with
        | nil =>
          rw [pstep_quoted_cons_esc]
          simp [pstep, specUnquote]
        | cons x rr =>
          have hnq : noCloseQuote rr = true := by
            simpa [noCloseQuote] using h
          rw [pstep_quoted_cons_esc, pstep_esc_cons,
            ih rr (by simp at hlen ⊢; omega) k (acc ++ utf8EncodeChar (escDecode x)) m hnq,
            escDecode_eq_escSpec]
          have hs : specUnquote (0x5C :: x :: rr) = utf8EncodeChar (escSpec x) ++ specUnquote rr := by
            simp [specUnquote]
          rw [hs]
          simp [List.append_assoc]
      · have hcons : noCloseQuote (b :: r) = (b != 0x22 && noCloseQuote r) := by
          cases r with
          | nil => simp [noCloseQuote, hb]
          | cons x rr => simp [noCloseQuote, hb]
        rw [hcons] at h
        have hq : b ≠ 0x22 := by
          intro hq2
          subst hq2
          simp at h
        have hnq : noCloseQuote r = true := by
          rcases Bool.and_eq_true_iff.mp h with ⟨h1, h2⟩
          exact h2
        rw [pstep_quoted_cons b r k acc m hq hb,
          ih r (by simp at hlen ⊢; omega) k (acc ++ utf8EncodeChar b) m hnq]
        have hs : specUnquote (b :: r) = utf8EncodeChar b ++ specUnquote r := by
          cases r with
          | nil => simp [specUnquote, hb]
          | cons x rr => simp [specUnquote, hb]
        rw [hs]
        simp [List.append_assoc]

theorem pstep_quoted_unterminated (bs : List Nat) (k acc : List Nat) (m : FieldMap)
    (h : noCloseQuote bs = true) :
    pstep bs (.quoted k acc) m = .ok (insertField m k (acc ++ specUnquote bs)) :=
  pstep_quoted_unterminated_bounded bs.length bs le_rfl k acc m h

theorem pstep_quoted_plain (inner : List Nat)
    (h : ∀ b ∈ inner, b < 0x80 ∧ b ≠ 0x22 ∧ b ≠ 0x5C) :
    ∀ t k acc m, pstep (inner ++ 0x22 :: t) (.quoted k acc) m
      = pstep t .ws (insertField m k (acc ++ inner)) := by
  induction inner with
  | nil =>
    intro t k acc m
    rw [List.nil_append, pstep_quoted_cons_close, List.append_nil]
  | cons b r ih =>
    intro t k acc m
    obtain ⟨hb, hq, hbs⟩ := h b (by simp)
    rw [List.cons_append, pstep_quoted_cons b _ k acc m hq hbs, utf8EncodeChar_ascii b hb,
      ih (fun x hx => h x (by simp [hx])) t k (acc ++ [b]) m]
    simp

/-! Support for the fractional-seconds claim. -/

theorem formatFrac_digits (frac : List Nat) (hd : ∀ b ∈ frac, 0x30 ≤ b ∧ b ≤ 0x39) :
    formatFrac frac = .ok (List.take 3 (frac ++ [0x30, 0x30, 0x30])) := by
  unfold formatFrac
  by_cases h0 : frac.length = 0
  · rw [if_pos h0, List.length_eq_zero.mp h0]
    rfl
  · rw [if_neg h0]
    by_cases h1 : frac.length = 1
    · rw [if_pos h1]
      obtain ⟨a, rfl⟩ := List.length_eq_one.mp h1
      rfl
    · rw [if_neg h1]
      by_cases h2 : frac.length = 2
      · rw [if_pos h2]
        obtain ⟨a, b, rfl⟩ := List.length_eq_two.mp h2
        rfl
      · rw [if_neg h2]
        have h3 : 3 ≤ frac.length := by omega
        have hcond : frac.length = 3 ∨ isContinuationByte (frac.getD 3 0) = false := by
          by_cases hl : frac.length = 3
          · exact Or.inl hl
          · right
            have h4 : 3 < frac.length := by omega
            have hm : frac.getD 3 0 ∈ frac := by
              rw [List.getD_eq_getElem frac 0 h4]
              exact List.getElem_mem h4
            have hdig := hd _ hm
            cases hb : isContinuationByte (frac.getD 3 0) with
            | false => rfl
            | true =>
              exfalso
              simp only [isContinuationByte, Bool.and_eq_true, decide_eq_true_eq] at hb
              omega
        rw [if_pos hcond]
        have hz : 3 - frac.length = 0 := by omega
        rw [List.take_append_eq_append_take, hz]
        simp

instance goodKey_decidable (k : List Nat) : Decidable (goodKey k) :=
  List.decidableBAll (fun b => b ≠ 0x3D ∧ isAsciiWhitespace b = false) k

/-! The claims. -/

/-- Claim C1, counterexample: the input "no-T-here" contains a literal T
with a dash after it, so the normalizer does not return None; it returns
the degenerate Some ".000".  This refutes the claim as stated. -/
theorem C1_counterexample :
    format_time_hms_millis (strBytes "no-T-here") = .ok (some (strBytes ".000")) := by
  decide

/-- Claim C1, amended: for an input string with no literal T at all, such
as "no-t-here", the timestamp normalizer returns None. -/
theorem C1_amended :
    (∀ ts : List Nat, findByte 0x54 ts = none → format_time_hms_millis ts = .ok none)
    ∧ format_time_hms_millis (strBytes "no-t-here") = .ok none := by
  constructor
  · intro ts h
    unfold format_time_hms_millis
    rw [h]
  · decide

/-- Claim C1, witness: the amended theorem applied at "no-t-here". -/
theorem C1_witness : format_time_hms_millis (strBytes "no-t-here") = .ok none :=
  C1_amended.1 (strBytes "no-t-here") (by decide)

/-- Claim C2, code bug: the line `ts=T.ééZ` parses successfully, but
formatting it panics, because the fractional part "éé" is four bytes long
and byte index 3 is not a char boundary, so `frac[..3]` panics.  The claim
says formatting is total and the normalizer never fails. -/
theorem C2_panic :
    parse_logfmt (strBytes "ts=T.ééZ") = .ok [(strBytes "ts", strBytes "T.ééZ")]
    ∧ formatLine [(strBytes "ts", strBytes "T.ééZ")] false = .error ()
    ∧ format_time_hms_millis (strBytes "T.ééZ") = .error () := by
  refine ⟨by decide, by decide, by decide⟩

/-- Claim C3: after the first T, the end of the time-of-day portion is the
first Z if present, else the first plus, else the last dash, and when none
of the three occurs in the remainder the normalizer returns None. -/
theorem C3_marker :
    (∀ rest : List Nat, findEnd rest = specEnd rest)
    ∧ (∀ (ts : List Nat) (tpos : Nat), findByte 0x54 ts = some tpos →
        0x5A ∉ ts.drop (tpos + 1) → 0x2B ∉ ts.drop (tpos + 1) → 0x2D ∉ ts.drop (tpos + 1) →
        format_time_hms_millis ts = .ok none) :=
  ⟨findEnd_eq_specEnd, fun ts tpos hT hz hp hd =>
    format_time_none_of_no_marker ts tpos hT hz hp hd⟩

/-- Claim C3, witness: a timestamp with no zone marker after the T fails
normalization. -/
theorem C3_witness : format_time_hms_millis (strBytes "2026-01-16T161350") = .ok none :=
  C3_marker.2 (strBytes "2026-01-16T161350") 10 (by decide) (by decide) (by decide) (by decide)

/-- Claim C4: a token whose key run reaches whitespace or end of line with
no equals sign fails the whole parse and discards the mapping built so far;
with the concrete instances "bad" and "a=1 bad". -/
theorem C4_eqless_token :
    (∀ (wsp tok rest : List Nat) (m : FieldMap),
      (∀ b ∈ wsp, isAsciiWhitespace b = true) → tok ≠ [] →
      (∀ b ∈ tok, b ≠ 0x3D ∧ isAsciiWhitespace b = false) →
      (rest = [] ∨ ∃ w t, rest = w :: t ∧ isAsciiWhitespace w = true) →
      pstep (wsp ++ (tok ++ rest)) .ws m = .error ())
    ∧ parse_logfmt (strBytes "bad") = .error ()
    ∧ parse_logfmt (strBytes "a=1 bad") = .error () := by
  refine ⟨?_, by decide, by decide⟩
  intro wsp tok rest m hw ht hk hrest
  rw [pstep_ws_skip wsp hw (tok ++ rest) m]
  exact pstep_key_fail_ws tok rest m hk ht hrest

/-- Claim C4, witness: the general statement applied mid-line, with a
non-empty partial mapping that the failure discards. -/
theorem C4_witness :
    pstep ([0x20] ++ (strBytes "bad" ++ [])) .ws [(strBytes "a", strBytes "1")]
      = .error () :=
  C4_eqless_token.1 [0x20] (strBytes "bad") [] [(strBytes "a", strBytes "1")]
    (by decide) (by decide) (by decide) (Or.inl rfl)

/-- Claim C5: inside a quoted value every backslash-X pair decodes by the
spec's table, unknown escapes passing X through unchanged, and a value
whose closing quote is missing ends at end of input without error, holding
everything accumulated. -/
theorem C5_escapes :
    (∀ (x : Nat) (r k acc : List Nat) (m : FieldMap),
      pstep (0x5C :: x :: r) (.quoted k acc) m
        = pstep r (.quoted k (acc ++ utf8EncodeChar (escSpec x))) m)
    ∧ (∀ (bs k acc : List Nat) (m : FieldMap), noCloseQuote bs = true →
        pstep bs (.quoted k acc) m = .ok (insertField m k (acc ++ specUnquote bs))) := by
  constructor
  · intro x r k acc m
    rw [pstep_quoted_cons_esc, pstep_esc_cons, escDecode_eq_escSpec]
  · intro bs k acc m h
    exact pstep_quoted_unterminated bs k acc m h

/-- Claim C5, witness: an unterminated quoted value containing the pair
backslash-n decodes it to a newline and parses without error. -/
theorem C5_witness :
    pstep (strBytes "a\\nb") (.quoted (strBytes "k") []) []
      = .ok (insertField [] (strBytes "k") ([] ++ specUnquote (strBytes "a\\nb"))) :=
  C5_escapes.2 (strBytes "a\\nb") (strBytes "k") [] [] (by decide)

/-- Claim C6: a fractional part made of digits is truncated or right-padded
with zeros to exactly three digits, and the two concrete spec examples
follow, including the ".000" appended when no fraction exists. -/
theorem C6_fraction :
    (∀ frac : List Nat, (∀ b ∈ frac, 0x30 ≤ b ∧ b ≤ 0x39) →
      formatFrac frac = .ok (List.take 3 (frac ++ [0x30, 0x30, 0x30])))
    ∧ format_time_hms_millis (strBytes "2026-01-16T16:13:50.1+00:00")
        = .ok (some (strBytes "16:13:50.100"))
    ∧ format_time_hms_millis (strBytes "2026-01-16T16:13:50Z")
        = .ok (some (strBytes "16:13:50.000")) :=
  ⟨formatFrac_digits, by decide, by decide⟩

/-- Claim C6, witness: the general statement at the one-digit fraction. -/
theorem C6_witness : formatFrac [0x31] = .ok [0x31, 0x30, 0x30] := by
  have h := C6_fraction.1 [0x31] (by decide)
  simpa using h

/-- Claim C7, counterexample: the line `a=é` parses, its value holds no
control characters, yet serializing and re-parsing yields a different
mapping, because the quoted-value loop re-reads each UTF-8 byte as one
char. -/
theorem C7_counterexample :
    parse_logfmt (strBytes "a=é") = .ok [(strBytes "a", strBytes "é")]
    ∧ parse_logfmt (serialize [(strBytes "a", strBytes "é")])
        = .ok [(strBytes "a", [0xC3, 0x83, 0xC2, 0xA9])]
    ∧ ([0xC3, 0x83, 0xC2, 0xA9] : List Nat) ≠ strBytes "é" := by
  refine ⟨by decide, by decide, by decide⟩

/-- Claim C7, amended: serializing the mapping of a successful parse as
space-separated quoted tokens with quote and backslash escaped, then
parsing again, returns exactly the same mapping, provided every parsed
value is ASCII. -/
theorem C7_roundtrip (input : List Nat) (m : FieldMap)
    (hp : parse_logfmt input = .ok m)
    (hv : ∀ p ∈ m, ∀ b ∈ p.2, b < 0x80) :
    parse_logfmt (serialize m) = .ok m := by
  have hg : goodMap m := pstep_goodMap input .ws [] m trivial goodMap_nil hp
  unfold parse_logfmt
  rw [parse_serialize m hg.1 hv []]
  rw [foldl_insert_eq_append m [] (by simp) hg.2]
  rfl

/-- Claim C7, witness: the round trip at the line "a=1 b=two". -/
theorem C7_witness :
    parse_logfmt (serialize [(strBytes "a", strBytes "1"), (strBytes "b", strBytes "two")])
      = .ok [(strBytes "a", strBytes "1"), (strBytes "b", strBytes "two")] :=
  C7_roundtrip (strBytes "a=1 b=two")
    [(strBytes "a", strBytes "1"), (strBytes "b", strBytes "two")] (by decide) (by decide)

/-- Claim C8: a line of well-formed tokens with duplicate keys parses
successfully, the mapping binds every key to the value of its last
occurrence, and holds each key at most once. -/
theorem C8_last_wins :
    (∀ pairs : List (List Nat × List Nat),
      (∀ p ∈ pairs, goodKey p.1 ∧ (∀ b ∈ p.2, isAsciiWhitespace b = false)
        ∧ p.2.head? ≠ some 0x22) →
      parse_logfmt (renderBare pairs)
        = .ok (pairs.foldl (fun a p => insertField a p.1 p.2) []))
    ∧ (∀ (pairs : List (List Nat × List Nat)) (q : List Nat),
        getField (pairs.foldl (fun a p => insertField a p.1 p.2) []) q = lastWins pairs q)
    ∧ (∀ pairs : List (List Nat × List Nat),
        ((pairs.foldl (fun a p => insertField a p.1 p.2) []).map Prod.fst).Nodup) := by
  refine ⟨?_, ?_, ?_⟩
  · intro pairs h
    exact parse_renderBare pairs h []
  · intro pairs q
    rw [getField_foldl_insert pairs [] q]
    cases lastWins pairs q <;> rfl
  · intro pairs
    exact foldl_insert_nodupKeys pairs [] (by simp)

/-- Claim C8, witness: the duplicate-key line "a=1 a=2" parses to the
single binding of a to 2. -/
theorem C8_witness :
    parse_logfmt (renderBare [(strBytes "a", strBytes "1"), (strBytes "a", strBytes "2")])
      = .ok [(strBytes "a", strBytes "2")] := by
  have h := C8_last_wins.1 [(strBytes "a", strBytes "1"), (strBytes "a", strBytes "2")]
    (by decide)
  rw [h]
  decide

/-- Claim C9, counterexample: with NO_COLOR set the color mode is off, yet
a field value carrying a raw ESC byte flows into the output verbatim, so
the produced output does contain an ANSI escape sequence. -/
theorem C9_counterexample :
    should_use_color true (some (strBytes "1")) true = false
    ∧ formatLine [(strBytes "msg", strBytes "\x1b[31m")] false
        = .ok (strBytes "??:??:??.??? [?] ?:? | ?: \x1b[31m\n")
    ∧ 0x1B ∈ strBytes "??:??:??.??? [?] ?:? | ?: \x1b[31m\n" := by
  refine ⟨by decide, by decide, by decide⟩

/-- Claim C9, amended: with NO_COLOR set the color mode is false whatever
FORCE_COLOR and the terminal say, and the uncolored output of a mapping
whose field values are free of the ESC byte contains no ANSI escape
sequence. -/
theorem C9_no_color (fc : Option (List Nat)) (tty : Bool) (m : FieldMap) (out : List Nat)
    (hm : ∀ p ∈ m, escFree p.2) (hout : formatLine m false = .ok out) :
    should_use_color true fc tty = false ∧ 0x1B ∉ out :=
  ⟨rfl, formatLine_no_esc m out hm hout⟩

/-- Claim C9, witness: the amended theorem at a one-field mapping. -/
theorem C9_witness :
    should_use_color true (some (strBytes "1")) true = false
    ∧ 0x1B ∉ strBytes "??:??:??.??? [?] ?:? | ?: hi\n" :=
  C9_no_color (some (strBytes "1")) true [(strBytes "msg", strBytes "hi")]
    (strBytes "??:??:??.??? [?] ?:? | ?: hi\n") (by decide) (by decide)

/-- Claim C10, counterexample: the quoted value backslash-n has all-ASCII
inner bytes, yet the parsed value is the newline byte, not the inner text:
escape decoding rewrites even ASCII content. -/
theorem C10_counterexample :
    parse_logfmt (strBytes "a=\"\\n\"") = .ok [(strBytes "a", [0x0A])]
    ∧ ([0x0A] : List Nat) ≠ [0x5C, 0x6E] := by
  refine ⟨by decide, by decide⟩

/-- Claim C10, amended: quoted values are decoded byte by byte with each
byte cast to a char, so an escape-free all-ASCII quoted body is preserved
exactly; a multi-byte character is split into one char per byte, as the
é example shows; and bare values are taken into the mapping verbatim. -/
theorem C10_bytes :
    (∀ inner : List Nat, (∀ b ∈ inner, b < 0x80 ∧ b ≠ 0x22 ∧ b ≠ 0x5C) →
      ∀ (t k acc : List Nat) (m : FieldMap),
        pstep (inner ++ 0x22 :: t) (.quoted k acc) m
          = pstep t .ws (insertField m k (acc ++ inner)))
    ∧ (parse_logfmt (strBytes "msg=\"é\"")
          = .ok [(strBytes "msg", [0xC3, 0x83, 0xC2, 0xA9])]
        ∧ ([0xC3, 0x83, 0xC2, 0xA9] : List Nat) ≠ strBytes "é")
    ∧ (∀ k v : List Nat, goodKey k → (∀ b ∈ v, isAsciiWhitespace b = false) →
        v.head? ≠ some 0x22 → parse_logfmt (bareTok k v) = .ok [(k, v)]) := by
  refine ⟨fun inner h => pstep_quoted_plain inner h, ⟨by decide, by decide⟩, ?_⟩
  intro k v hk hv hq
  unfold parse_logfmt
  have h := pstep_tokenBare k v [] [] hk hv hq (Or.inl rfl)
  rw [show bareTok k v ++ [] = bareTok k v from by simp] at h
  rw [h]
  rfl

/-- Claim C10, witness: an escape-free ASCII quoted body is preserved
exactly in the mapping. -/
theorem C10_witness :
    pstep (strBytes "hi" ++ 0x22 :: strBytes " x=2") (.quoted (strBytes "msg") []) []
      = pstep (strBytes " x=2") .ws (insertField [] (strBytes "msg") ([] ++ strBytes "hi")) :=
  C10_bytes.1 (strBytes "hi") (by decide) (strBytes " x=2") (strBytes "msg") [] []
